import Mathlib

/-!
Verification of the ingestion pipeline in `src/ingest.py` (repository
`leordev/chat-tbd`).

The file shallowly embeds the pure content of `ingest.py`:
metadata dictionaries become association lists (first binding wins on
lookup, matching Python `dict` lookup), documents become a structure of
page content plus metadata, env reads become functions
`String → Option String`, fallible external calls become `Except`, and
the observable side effects of `ingest_docs` (log lines, warnings, the
call into `index`) become an explicit event list.

The reconciliation function `index` is imported by `ingest.py` from
`_index`, a module of this repository that is not under `src/`; it is
modelled from the spec (see its doc comment).
-/

namespace Ingest

/-- Python-style string dictionary: an association list where the first
binding for a key is the one `mlookup` returns.  `{**base, **override}`
with `override` spread last is embedded as `override ++ base`. -/
abbrev StrDict := List (String × String)

/-- Dictionary lookup: first binding wins, `none` when the key is absent
(Python `d[k]` raising `KeyError`, or `k not in d`). -/
def mlookup (m : StrDict) (k : String) : Option String :=
  match m with
  | [] => none
  | e :: rest => if e.1 = k then some e.2 else mlookup rest k

/-- A LangChain `Document`: page content plus a metadata dictionary. -/
structure Document where
  page_content : String
  metadata : StrDict
deriving DecidableEq

/-! ### Process configuration (src/ingest.py lines 23-27, 191-194, 216-217) -/

/-- Embeds the module-level env reads of `src/ingest.py` lines 23-24:
`WEAVIATE_URL = os.environ["WEAVIATE_URL"]` and
`WEAVIATE_API_KEY = os.environ["WEAVIATE_API_KEY"]`.  `os.environ[k]`
raises `KeyError` when `k` is unset, hence the `Except`. -/
def startupEnvReads (env : String → Option String) :
    Except String (String × String) :=
  match env "WEAVIATE_URL" with
  | none => .error "KeyError: WEAVIATE_URL"
  | some u =>
    match env "WEAVIATE_API_KEY" with
    | none => .error "KeyError: WEAVIATE_API_KEY"
    | some k => .ok (u, k)

/-- Embeds `src/ingest.py` lines 26-27.  The environment read
`os.environ["RECORD_MANAGER_DB_URL"]` is present only as a comment in the
source; the binding is the hardcoded constant below, so the result ignores
the environment argument. -/
def RECORD_MANAGER_DB_URL (env : String → Option String) : String :=
  "sqlite:///mydatabase.db"

/-- The keyword arguments of the `weaviate.Client(...)` call. -/
structure WeaviateClientConfig where
  url : String
  auth_client_secret : Option String
deriving DecidableEq

/-- Embeds the client construction at `src/ingest.py` lines 191-194.
Only `url=WEAVIATE_URL` is passed; the
`auth_client_secret=weaviate.AuthApiKey(api_key=WEAVIATE_API_KEY)`
argument is commented out in the source, so the credential is not used. -/
def mkWeaviateClient (WEAVIATE_URL WEAVIATE_API_KEY : String) :
    WeaviateClientConfig :=
  { url := WEAVIATE_URL, auth_client_secret := none }

/-- Python `a or b` on strings: `b` when `a` is missing or falsy (the
empty string), else `a`.  Embeds `os.environ.get("FORCE_UPDATE") or
"false"` at `src/ingest.py` line 216. -/
def pyOrDefault (a : Option String) (b : String) : String :=
  match a with
  | none => b
  | some s => if s = "" then b else s

/-- Python `str.lower()`: lowercase every character (kernel-reducible
variant of `String.toLower`, which maps `Char.toLower` over the
characters). -/
def pyLower (s : String) : String :=
  String.mk (s.data.map Char.toLower)

/-- Embeds the `force_update` argument computed at `src/ingest.py`
lines 216-217: `(os.environ.get("FORCE_UPDATE") or "false").lower() ==
"true"`. -/
def forceUpdateFromEnv (v : Option String) : Bool :=
  pyLower (pyOrDefault v "false") == "true"

end Ingest

namespace Ingest

/-! ### Claims C4, C5, C6 -/

/-- C4: the `force_update` flag passed to `index` is true exactly when the
`FORCE_UPDATE` environment variable is set to a value whose lowercasing is
`"true"`; an unset variable, the empty string, and any other value give
`false` (the default). -/
theorem forceUpdate_spec :
    (∀ v : Option String,
      forceUpdateFromEnv v = true ↔
        ∃ s, v = some s ∧ pyLower s = "true") ∧
    forceUpdateFromEnv none = false ∧
    forceUpdateFromEnv (some "") = false := by
  refine ⟨fun v => ?_, by decide, by decide⟩
  cases v with
  | none =>
    simp only [forceUpdateFromEnv, pyOrDefault]
    constructor
    · intro h
      exact absurd h (by decide)
    · rintro ⟨s, hs, _⟩
      exact absurd hs (by simp)
  | some s =>
    simp only [forceUpdateFromEnv, pyOrDefault]
    by_cases hs : s = ""
    · subst hs
      constructor
      · intro h
        exact absurd h (by decide)
      · rintro ⟨t, ht, hlow⟩
        cases ht
        exact absurd hlow (by decide)
    · rw [if_neg hs]
      constructor
      · intro h
        exact ⟨s, rfl, by simpa using h⟩
      · rintro ⟨t, ht, hlow⟩
        cases ht
        simp [hlow]

/-- Closed instance of C4 at concrete inputs: `FORCE_UPDATE=TRUE` turns
the flag on, exercising the theorem's existential direction. -/
theorem forceUpdate_spec_witness :
    forceUpdateFromEnv (some "TRUE") = true :=
  (forceUpdate_spec.1 (some "TRUE")).mpr ⟨"TRUE", rfl, by decide⟩

/-- C5 counterexample: even with the environment variable
`RECORD_MANAGER_DB_URL` bound to a PostgreSQL URL, the storage location
used to construct the `SQLRecordManager` is still the hardcoded SQLite
constant — the value is not read from the process environment (the env
read at `src/ingest.py` line 26 is commented out). -/
theorem recordManagerUrl_ignores_env :
    RECORD_MANAGER_DB_URL
        (fun k => if k = "RECORD_MANAGER_DB_URL"
                  then some "postgresql://prod-ledger" else none)
      = "sqlite:///mydatabase.db" ∧
    "sqlite:///mydatabase.db" ≠ "postgresql://prod-ledger" := by
  exact ⟨rfl, by decide⟩

/-- C5 amended: the record-ledger storage location is the hardcoded
constant `sqlite:///mydatabase.db` for every environment; the environment
read survives only as a comment in the source. -/
theorem recordManagerUrl_constant :
    ∀ env : String → Option String,
      RECORD_MANAGER_DB_URL env = "sqlite:///mydatabase.db" :=
  fun _ => rfl

/-- C6 counterexample: with a concrete endpoint and credential, the
constructed Weaviate client carries no authentication secret at all —
the credential read from the environment is never used to configure the
client (the `auth_client_secret` argument at `src/ingest.py` line 193 is
commented out). -/
theorem weaviateClient_unauthenticated :
    (mkWeaviateClient "https://weaviate.example" "secret-key").auth_client_secret
        = none ∧
    mkWeaviateClient "https://weaviate.example" "secret-key"
        = mkWeaviateClient "https://weaviate.example" "another-key" := by
  exact ⟨rfl, rfl⟩

/-- C6 amended: both `WEAVIATE_URL` and `WEAVIATE_API_KEY` are read (and
required) from the environment at startup, but only the endpoint is used
to configure the Vector Store client; the credential does not authenticate
the client, whose `auth_client_secret` is always `none`. -/
theorem weaviateClient_amended :
    (∀ env : String → Option String, ∀ u k,
        env "WEAVIATE_URL" = some u → env "WEAVIATE_API_KEY" = some k →
        startupEnvReads env = .ok (u, k)) ∧
    (∀ env : String → Option String,
        env "WEAVIATE_API_KEY" = none →
        ∃ e, startupEnvReads env = .error e) ∧
    (∀ u k, (mkWeaviateClient u k).url = u ∧
        (mkWeaviateClient u k).auth_client_secret = none) := by
  refine ⟨fun env u k hu hk => ?_, fun env hk => ?_, fun u k => ⟨rfl, rfl⟩⟩
  · simp [startupEnvReads, hu, hk]
  · cases hu : env "WEAVIATE_URL" with
    | none => exact ⟨"KeyError: WEAVIATE_URL", by simp [startupEnvReads, hu]⟩
    | some u => exact ⟨"KeyError: WEAVIATE_API_KEY", by simp [startupEnvReads, hu, hk]⟩

/-- Closed instance of C6's amended theorem at a concrete two-variable
environment. -/
theorem weaviateClient_amended_witness :
    startupEnvReads
        (fun k => if k = "WEAVIATE_URL" then some "https://w.example"
                  else if k = "WEAVIATE_API_KEY" then some "sk-1" else none)
      = .ok ("https://w.example", "sk-1") :=
  weaviateClient_amended.1 _ "https://w.example" "sk-1" (by decide) (by decide)

end Ingest

namespace Ingest

/-! ### `simple_extractor`'s whitespace normalization
(src/ingest.py lines 120-122)

`simple_extractor` returns `re.sub(r"\n\n+", "\n\n", soup.text).strip()`.
The HTML-to-text step (`BeautifulSoup(html).text`) is the external parser;
the normalization applied to its output is embedded below over `List
Char`.  The regex replaces every maximal run of two or more newlines with
exactly two, i.e. it keeps at most the first two newlines of every run;
`collapseGo` carries the length (capped at 2) of the current run of
newlines already emitted. -/

/-- Worker for the `re.sub(r"\n\n+", "\n\n", ·)` embedding: `n` is how
many consecutive newlines immediately precede the current position
(capped at 2).  A newline is dropped exactly when two newlines of the
same run precede it. -/
def collapseGo (n : Nat) : List Char → List Char
  | [] => []
  | c :: rest =>
    if c = '\n' then
      if 2 ≤ n then collapseGo n rest
      else c :: collapseGo (n + 1) rest
    else c :: collapseGo 0 rest

/-- Embeds `re.sub(r"\n\n+", "\n\n", s)`: every maximal run of two or
more newlines is replaced by exactly two. -/
def collapseNL (s : List Char) : List Char := collapseGo 0 s

/-- The characters Python's `str.strip()` removes from either end (the
ASCII whitespace characters). -/
def isPyWS (c : Char) : Bool :=
  c = ' ' || c = '\t' || c = '\n' || c = '\r' || c = '\x0b' || c = '\x0c'

/-- Embeds Python `str.strip()`: drop whitespace from the front, then
from the back (via reverse). -/
def pyStrip (s : List Char) : List Char :=
  (((s.dropWhile isPyWS).reverse).dropWhile isPyWS).reverse

/-- The whitespace normalization performed by `simple_extractor`
(src/ingest.py line 122): collapse newline runs, then strip. -/
def normalizeText (s : List Char) : List Char := pyStrip (collapseNL s)

end Ingest

example : Ingest.normalizeText "a\n\n\n\nb\n\n".data = "a\n\nb".data := by decide
example : Ingest.normalizeText "  \n x\ny ".data = "x\ny".data := by decide

namespace Ingest

/-! ### Generic list lemmas used for the normalization proofs -/

theorem sub_of_pre {α : Type} {l₁ l₂ : List α} (h : l₁ <+: l₂) : l₁ <:+: l₂ := by
  obtain ⟨t, ht⟩ := h
  exact ⟨[], t, by simp [ht]⟩

theorem sub_of_suf {α : Type} {l₁ l₂ : List α} (h : l₁ <:+ l₂) : l₁ <:+: l₂ := by
  obtain ⟨t, ht⟩ := h
  exact ⟨t, [], by simp [ht]⟩

theorem sub_cons {α : Type} {l₁ l₂ : List α} {a : α} :
    l₁ <:+: a :: l₂ ↔ l₁ <+: a :: l₂ ∨ l₁ <:+: l₂ :=
  List.infix_cons_iff

theorem pre_cons {α : Type} {l₁ l₂ : List α} {a b : α} :
    a :: l₁ <+: b :: l₂ ↔ a = b ∧ l₁ <+: l₂ :=
  List.cons_prefix_cons

theorem dropWhile_head_not {p : Char → Bool} :
    ∀ {l : List Char} {c : Char}, (l.dropWhile p).head? = some c → p c = false := by
  intro l
  induction l with
  | nil => intro c h; simp at h
  | cons a rest ih =>
    intro c h
    rw [List.dropWhile_cons] at h
    by_cases ha : p a
    · rw [if_pos ha] at h
      exact ih h
    · rw [if_neg ha] at h
      simp only [List.head?_cons, Option.some.injEq] at h
      subst h
      exact Bool.eq_false_iff.mpr ha

theorem dropWhile_of_head {p : Char → Bool} {l : List Char}
    (h : ∀ c, l.head? = some c → p c = false) : l.dropWhile p = l := by
  cases l with
  | nil => rfl
  | cons a rest =>
    rw [List.dropWhile_cons, if_neg]
    simp [h a rfl]

theorem suf_getLast {l₁ l₂ : List Char} (h : l₁ <:+ l₂) (hne : l₁ ≠ []) :
    l₁.getLast? = l₂.getLast? := by
  obtain ⟨s, hs⟩ := h
  rw [← hs]
  exact (List.getLast?_append_of_ne_nil s hne).symm

end Ingest

namespace Ingest

/-! ### Properties of the collapse step -/

/-- Three consecutive newlines, the pattern forbidden in
`simple_extractor`'s output. -/
def nl3 : List Char := ['\n', '\n', '\n']

theorem collapseGo_cons_nl_ge (n : Nat) (rest : List Char) (hn : 2 ≤ n) :
    collapseGo n ('\n' :: rest) = collapseGo n rest := by
  simp [collapseGo, hn]

theorem collapseGo_cons_nl_lt (n : Nat) (rest : List Char) (hn : ¬ 2 ≤ n) :
    collapseGo n ('\n' :: rest) = '\n' :: collapseGo (n + 1) rest := by
  simp [collapseGo, hn]

theorem collapseGo_cons_other (n : Nat) (c : Char) (rest : List Char)
    (hc : ¬ c = '\n') : collapseGo n (c :: rest) = c :: collapseGo 0 rest := by
  simp [collapseGo, hc]

theorem collapseGo_clean : ∀ (s : List Char) (n : Nat),
    ¬ nl3 <:+: collapseGo n s ∧
    (1 ≤ n → ¬ ['\n', '\n'] <+: collapseGo n s) ∧
    (2 ≤ n → ¬ ['\n'] <+: collapseGo n s) := by
  intro s
  induction s with
  | nil =>
    intro n
    refine ⟨?_, fun _ h => ?_, fun _ h => ?_⟩
    · simp [collapseGo, nl3]
    · simp [collapseGo] at h
    · simp [collapseGo] at h
  | cons c rest ih =>
    intro n
    by_cases hc : c = '\n'
    · subst hc
      by_cases hn : 2 ≤ n
      · simpa only [collapseGo, if_pos rfl, if_pos hn] using ih n
      · simp only [collapseGo, if_pos rfl, if_neg hn]
        obtain ⟨ih1, ih2, ih3⟩ := ih (n + 1)
        have h2 : ¬ ['\n', '\n'] <+: collapseGo (n + 1) rest := ih2 (by omega)
        refine ⟨?_, ?_, ?_⟩
        · intro hinf
          rcases sub_cons.mp hinf with hpre | hsub
          · exact h2 (pre_cons.mp hpre).2
          · exact ih1 hsub
        · intro hn1 hpre
          exact ih3 (by omega) (pre_cons.mp hpre).2
        · intro hn2 _
          exact hn hn2
    · simp only [collapseGo, if_neg hc]
      obtain ⟨ih1, _, _⟩ := ih 0
      refine ⟨?_, fun _ hpre => ?_, fun _ hpre => ?_⟩
      · intro hinf
        rcases sub_cons.mp hinf with hpre | hsub
        · exact hc (pre_cons.mp hpre).1.symm
        · exact ih1 hsub
      · exact hc (pre_cons.mp hpre).1.symm
      · exact hc (pre_cons.mp hpre).1.symm

theorem collapseGo_idem : ∀ (s : List Char) (n : Nat),
    collapseGo n (collapseGo n s) = collapseGo n s := by
  intro s
  induction s with
  | nil => intro n; rfl
  | cons c rest ih =>
    intro n
    by_cases hc : c = '\n'
    · subst hc
      by_cases hn : 2 ≤ n
      · rw [collapseGo_cons_nl_ge n rest hn]
        exact ih n
      · rw [collapseGo_cons_nl_lt n rest hn,
            collapseGo_cons_nl_lt n (collapseGo (n + 1) rest) hn, ih (n + 1)]
    · rw [collapseGo_cons_other n c rest hc,
          collapseGo_cons_other n c (collapseGo 0 rest) hc, ih 0]

theorem collapseGo_eq_self : ∀ (s : List Char) (n : Nat),
    ¬ nl3 <:+: s → (1 ≤ n → ¬ ['\n', '\n'] <+: s) → (2 ≤ n → ¬ ['\n'] <+: s) →
    collapseGo n s = s := by
  intro s
  induction s with
  | nil => intro n _ _ _; rfl
  | cons c rest ih =>
    intro n h1 h2 h3
    by_cases hc : c = '\n'
    · subst hc
      by_cases hn : 2 ≤ n
      · exact absurd ⟨rest, rfl⟩ (h3 hn)
      · rw [collapseGo_cons_nl_lt n rest hn]
        have ha : ¬ nl3 <:+: rest := fun hr => h1 (sub_cons.mpr (Or.inr hr))
        have hb : 1 ≤ n + 1 → ¬ ['\n', '\n'] <+: rest := by
          intro _ hr
          exact h1 (sub_of_pre (pre_cons.mpr ⟨rfl, hr⟩))
        have hc2 : 2 ≤ n + 1 → ¬ ['\n'] <+: rest := by
          intro hn1 hr
          exact h2 (by omega) (pre_cons.mpr ⟨rfl, hr⟩)
        rw [ih (n + 1) ha hb hc2]
    · rw [collapseGo_cons_other n c rest hc]
      have ha : ¬ nl3 <:+: rest := fun hr => h1 (sub_cons.mpr (Or.inr hr))
      rw [ih 0 ha (fun h' => absurd h' (by omega)) (fun h' => absurd h' (by omega))]

end Ingest

namespace Ingest

/-! ### Properties of `pyStrip` and the full normalization -/

theorem pyStrip_head {s : List Char} {c : Char}
    (h : (pyStrip s).head? = some c) : isPyWS c = false := by
  unfold pyStrip at h
  rw [List.head?_reverse] at h
  have hne : (((s.dropWhile isPyWS).reverse).dropWhile isPyWS) ≠ [] := by
    intro h0
    rw [h0] at h
    simp at h
  have hsuf := List.dropWhile_suffix (l := (s.dropWhile isPyWS).reverse) isPyWS
  rw [suf_getLast hsuf hne, List.getLast?_reverse] at h
  exact dropWhile_head_not h

theorem pyStrip_last {s : List Char} {c : Char}
    (h : (pyStrip s).getLast? = some c) : isPyWS c = false := by
  unfold pyStrip at h
  rw [List.getLast?_reverse] at h
  exact dropWhile_head_not h

theorem pyStrip_sub (s : List Char) : pyStrip s <:+: s := by
  have h1 : ((s.dropWhile isPyWS).reverse).dropWhile isPyWS <:+ (s.dropWhile isPyWS).reverse :=
    List.dropWhile_suffix isPyWS
  have h2 : pyStrip s <+: s.dropWhile isPyWS := by
    have := List.reverse_prefix.mpr h1
    rwa [List.reverse_reverse] at this
  exact (sub_of_pre h2).trans (sub_of_suf (List.dropWhile_suffix isPyWS))

theorem pyStrip_idem (s : List Char) : pyStrip (pyStrip s) = pyStrip s := by
  have hfront : (pyStrip s).dropWhile isPyWS = pyStrip s :=
    dropWhile_of_head (fun c hc => pyStrip_head hc)
  have hback : ((pyStrip s).reverse).dropWhile isPyWS = (pyStrip s).reverse := by
    refine dropWhile_of_head (fun c hc => ?_)
    rw [List.head?_reverse] at hc
    exact pyStrip_last hc
  show (((pyStrip s).dropWhile isPyWS).reverse.dropWhile isPyWS).reverse = pyStrip s
  rw [hfront, hback, List.reverse_reverse]

theorem collapseNL_clean (s : List Char) : ¬ nl3 <:+: collapseNL s :=
  (collapseGo_clean s 0).1

theorem collapseNL_idem (s : List Char) : collapseNL (collapseNL s) = collapseNL s :=
  collapseGo_idem s 0

theorem collapseNL_eq_self {s : List Char} (h : ¬ nl3 <:+: s) : collapseNL s = s :=
  collapseGo_eq_self s 0 h (fun h' => absurd h' (by omega))
    (fun h' => absurd h' (by omega))

theorem normalizeText_clean (s : List Char) : ¬ nl3 <:+: normalizeText s :=
  fun h => collapseNL_clean s (h.trans (pyStrip_sub (collapseNL s)))

theorem normalizeText_idem (s : List Char) :
    normalizeText (normalizeText s) = normalizeText s := by
  unfold normalizeText
  have h1 : ¬ nl3 <:+: pyStrip (collapseNL s) := by
    intro h
    exact collapseNL_clean s (h.trans (pyStrip_sub (collapseNL s)))
  rw [collapseNL_eq_self h1, pyStrip_idem]

end Ingest

namespace Ingest

/-- C10: `simple_extractor`'s whitespace normalization (collapse runs of
two or more newlines to exactly two, then strip) is idempotent, its
output never contains three consecutive newlines, and its output has no
leading or trailing whitespace character. -/
theorem simple_extractor_normalization :
    (∀ s : List Char, normalizeText (normalizeText s) = normalizeText s) ∧
    (∀ s : List Char, ¬ nl3 <:+: normalizeText s) ∧
    (∀ (s : List Char) (c : Char),
        (normalizeText s).head? = some c → isPyWS c = false) ∧
    (∀ (s : List Char) (c : Char),
        (normalizeText s).getLast? = some c → isPyWS c = false) :=
  ⟨normalizeText_idem, normalizeText_clean,
   fun _ _ h => pyStrip_head h, fun _ _ h => pyStrip_last h⟩

/-- Closed instance of C10 at a concrete input: normalization of
`"  a\n\n\n\nb\n"` is a fixed point, and its first character is the
non-whitespace character `a`. -/
theorem simple_extractor_normalization_witness :
    normalizeText (normalizeText "  a\n\n\n\nb\n".data)
        = normalizeText "  a\n\n\n\nb\n".data ∧
    isPyWS 'a' = false :=
  ⟨simple_extractor_normalization.1 "  a\n\n\n\nb\n".data,
   simple_extractor_normalization.2.2.1 "  a\n\n\n\nb\n".data 'a' (by decide)⟩

end Ingest

namespace Ingest

/-! ### `metadata_extractor` (src/ingest.py lines 30-40) -/

/-- The parts of the parsed page (`BeautifulSoup`) that
`metadata_extractor` inspects: the text of the `<title>` element (absent
element is `none`), the `content` attribute of
`<meta name="description">` (`none` when the element is absent,
`some none` when the element lacks a `content` attribute), and the
`lang` attribute of `<html>` (same convention). -/
structure Soup where
  titleText : Option String
  descriptionContent : Option (Option String)
  htmlLang : Option (Option String)
deriving DecidableEq

/-- Embeds `metadata_extractor`: builds the dict literal
`{"source": meta["loc"], "title": ..., "description": ..., "language":
..., **meta}` — `meta` is spread last, so its bindings override the four
extracted ones (association-list lookup: first match wins, so the
override is `meta ++ base`).  `meta["loc"]` raises `KeyError` when `loc`
is absent, hence the `Option` result. -/
def metadata_extractor (meta : StrDict) (soup : Soup) : Option StrDict :=
  match mlookup meta "loc" with
  | none => none
  | some loc =>
    some (meta ++
      [("source", loc),
       ("title", soup.titleText.getD ""),
       ("description", (soup.descriptionContent.map (fun a => a.getD "")).getD ""),
       ("language", (soup.htmlLang.map (fun a => a.getD "")).getD "")])

theorem mlookup_append (m₁ m₂ : StrDict) (k : String) :
    mlookup (m₁ ++ m₂) k = (mlookup m₁ k).orElse (fun _ => mlookup m₂ k) := by
  induction m₁ with
  | nil => simp [mlookup]
  | cons e rest ih =>
    by_cases he : e.1 = k
    · simp [mlookup, he]
    · simp [mlookup, he, ih]

theorem mlookup_append_of_none {m₁ : StrDict} (m₂ : StrDict) {k : String}
    (h : mlookup m₁ k = none) : mlookup (m₁ ++ m₂) k = mlookup m₂ k := by
  rw [mlookup_append, h]
  rfl

theorem mlookup_append_of_some {m₁ : StrDict} (m₂ : StrDict) {k v : String}
    (h : mlookup m₁ k = some v) : mlookup (m₁ ++ m₂) k = some v := by
  rw [mlookup_append, h]
  rfl

end Ingest

namespace Ingest

/-- C9: in `metadata_extractor`'s result, a key already present in the
raw `meta` mapping overrides the extracted value (because `**meta` is
spread last in the dict literal); in particular the result's `source` is
the extracted `meta["loc"]` exactly when `meta` has no `source` binding
of its own, and `title` / `description` / `language` default to the
empty string when the corresponding page element or attribute is absent
(and `meta` does not override them). -/
theorem metadata_extractor_spec (meta : StrDict) (soup : Soup) (loc : String)
    (hloc : mlookup meta "loc" = some loc) :
    ∃ r, metadata_extractor meta soup = some r ∧
      (∀ k v, mlookup meta k = some v → mlookup r k = some v) ∧
      (mlookup meta "source" = none → mlookup r "source" = some loc) ∧
      (mlookup meta "title" = none → soup.titleText = none →
        mlookup r "title" = some "") ∧
      (mlookup meta "description" = none →
        (soup.descriptionContent = none ∨ soup.descriptionContent = some none) →
        mlookup r "description" = some "") ∧
      (mlookup meta "language" = none →
        (soup.htmlLang = none ∨ soup.htmlLang = some none) →
        mlookup r "language" = some "") := by
  refine ⟨_, by rw [metadata_extractor, hloc], ?_, ?_, ?_, ?_, ?_⟩
  · intro k v hv
    exact mlookup_append_of_some _ hv
  · intro hnone
    rw [mlookup_append_of_none _ hnone]
    rfl
  · intro hnone htitle
    rw [mlookup_append_of_none _ hnone, htitle]
    rfl
  · intro hnone hdesc
    rw [mlookup_append_of_none _ hnone]
    rcases hdesc with h | h <;> rw [h] <;> rfl
  · intro hnone hlang
    rw [mlookup_append_of_none _ hnone]
    rcases hlang with h | h <;> rw [h] <;> rfl

/-- Closed instance of C9 at concrete inputs: a sitemap `meta` that
already carries `source` and `title` keeps them over the extracted
values, and with an empty soup the defaults are empty strings. -/
theorem metadata_extractor_spec_witness :
    ∃ r, metadata_extractor [("loc", "https://u"), ("source", "mine")]
          ⟨none, none, none⟩ = some r ∧
      mlookup r "source" = some "mine" ∧ mlookup r "title" = some "" := by
  obtain ⟨r, hr, hover, hsrc, htitle, _, _⟩ :=
    metadata_extractor_spec [("loc", "https://u"), ("source", "mine")]
      ⟨none, none, none⟩ "https://u" (by decide)
  exact ⟨r, hr, hover "source" "mine" (by decide), htitle (by decide) rfl⟩

end Ingest

namespace Ingest

/-! ### The Indexing Engine

`ingest.py` calls `index` from the repository module `_index`, which is
not under `src/` (only its call site is).  The definitions below are
therefore modelled from the spec, §4.1. -/

/-- Modelled from the spec: the Content Hash, "a deterministic digest of
a chunk's `(content, metadata)` pair" with "two chunks with identical
content and metadata produce the same hash", and the derived record id
is deterministic in it.  The digest is embedded as the pair itself — a
canonical deterministic injective digest. -/
def contentHash (c : Document) : String × StrDict :=
  (c.page_content, c.metadata)

/-- The type of content hashes / Vector Store record ids. -/
abbrev HashKey := String × StrDict

/-- Modelled from the spec: a Record Manager Entry
`{key: ContentHash, group_id: SourceKey, updated_at: timestamp}`. -/
structure RMEntry where
  key : HashKey
  group_id : String
  updated_at : Nat
deriving DecidableEq

/-- The two persistent stores the engine drives: the Record Manager
ledger and the Vector Store (its set of record ids). -/
structure IndexState where
  rm : List RMEntry
  vs : List HashKey
deriving DecidableEq

/-- The `cleanup` argument of `index`: `None`, `"incremental"` or
`"full"`. -/
inductive CleanupMode where
  | noCleanup
  | incremental
  | full
deriving DecidableEq

/-- The `IndexingStats` record returned by `index`. -/
structure IndexingStats where
  num_added : Nat
  num_updated : Nat
  num_skipped : Nat
  num_deleted : Nat
deriving DecidableEq

/-- The Source Key of a chunk: the value of the configured source-id
metadata field (`ingest_docs` passes `source_id_key="source"`). -/
def sourceKeyOf (source_id_key : String) (c : Document) : String :=
  (mlookup c.metadata source_id_key).getD ""

/-- Record Manager existence check for one key. -/
def rmFind (rm : List RMEntry) (k : HashKey) : Bool :=
  rm.any (fun e => decide (e.key = k))

/-- Record Manager batch upsert-with-timestamp, for one key: refresh the
entry in place when the key exists, append it otherwise. -/
def rmUpsert (rm : List RMEntry) (k : HashKey) (g : String) (t : Nat) :
    List RMEntry :=
  if rmFind rm k then rm.map (fun e => if e.key = k then ⟨k, g, t⟩ else e)
  else rm ++ [⟨k, g, t⟩]

/-- Vector Store idempotent upsert: re-adding an existing id is a no-op
overwrite. -/
def vsUpsert (vs : List HashKey) (k : HashKey) : List HashKey :=
  if k ∈ vs then vs else vs ++ [k]

/-- Accumulator of the per-chunk upsert pass: the three counters and the
evolving state of the two stores. -/
structure UpAcc where
  added : Nat
  updated : Nat
  skipped : Nat
  st : IndexState
deriving DecidableEq

/-- Modelled from the spec: one chunk of §4.1 step 2.  A key that exists
with `force_update` false is skipped (`num_skipped += 1`, no Vector
Store write); an existing key with `force_update` true is overwritten
(`num_updated`); a new key is added (`num_added`).  Every chunk's ledger
entry is upserted with the run timestamp — for the skip case this is the
ledger-refresh that step 3's staleness rule ("stale" = "not touched by
this run") requires, and that §8's idempotence property presupposes,
since a skipped-but-still-present chunk must not be swept as stale. -/
def upsertStep (source_id_key : String) (force_update : Bool) (now : Nat)
    (acc : UpAcc) (c : Document) : UpAcc :=
  let k := contentHash c
  let g := sourceKeyOf source_id_key c
  let ex := rmFind acc.st.rm k
  { added := acc.added + (if ex then 0 else 1)
    updated := acc.updated + (if ex && force_update then 1 else 0)
    skipped := acc.skipped + (if ex && !force_update then 1 else 0)
    st := { rm := rmUpsert acc.st.rm k g now
            vs := if ex && !force_update then acc.st.vs
                  else vsUpsert acc.st.vs k } }

/-- Worker for deduplication: keep the first chunk of every distinct
content hash. -/
def dedupGo (seen : List HashKey) : List Document → List Document
  | [] => []
  | c :: rest =>
    if contentHash c ∈ seen then dedupGo seen rest
    else c :: dedupGo (contentHash c :: seen) rest

/-- Modelled from the spec, §4.1 tie-breaks: "duplicate chunks
(identical hash) within one run collapse to a single Vector Store
write", counted once. -/
def dedupByKey (chunks : List Document) : List Document := dedupGo [] chunks

/-- Modelled from the spec, §4.1 steps 1-2: hash, dedupe, then per
deduped chunk skip / add / overwrite via `upsertStep`, all upserts of
the run sharing the run timestamp `now`. -/
def runUpserts (chunks : List Document) (st : IndexState)
    (source_id_key : String) (force_update : Bool) (now : Nat) : UpAcc :=
  (dedupByKey chunks).foldl (upsertStep source_id_key force_update now)
    ⟨0, 0, 0, st⟩

/-- Modelled from the spec, §4.1 step 3, `"full"`: every Record Manager
entry whose `updated_at` is strictly older than the run's start
timestamp is stale; stale records are deleted from the Vector Store and
the Record Manager, and counted. -/
def fullSweep (st : IndexState) (now : Nat) : Nat × IndexState :=
  let stale := st.rm.filter (fun e => decide (e.updated_at < now))
  (stale.length,
   { rm := st.rm.filter (fun e => !decide (e.updated_at < now)),
     vs := st.vs.filter (fun k => decide (k ∉ stale.map (fun e => e.key))) })

/-- Modelled from the spec, §4.1 step 3, `"incremental"`: the same
staleness rule, scoped to the source groups present in this run. -/
def incrementalSweep (st : IndexState) (groups : List String) (now : Nat) :
    Nat × IndexState :=
  let stale := st.rm.filter
    (fun e => decide (e.updated_at < now) && decide (e.group_id ∈ groups))
  (stale.length,
   { rm := st.rm.filter
       (fun e => !(decide (e.updated_at < now) && decide (e.group_id ∈ groups))),
     vs := st.vs.filter (fun k => decide (k ∉ stale.map (fun e => e.key))) })

/-- Modelled from the spec, §4.1: the Indexing Engine.  Precondition
check: with a cleanup mode other than `None` every chunk must carry the
`source_id_key` (a fatal configuration error otherwise, aborting before
any write).  Then the upsert pass (`runUpserts`) and, for a cleanup mode
other than `None`, the deletion sweep (`fullSweep` /
`incrementalSweep`); the returned stats combine the pass counters with
the sweep's deletion count.  Deletion paging (`cleanup_batch_size`) only
partitions the deletions and is invisible in the final state, so it is
not modelled. -/
def index (chunks : List Document) (st : IndexState) (cleanup : CleanupMode)
    (source_id_key : String) (force_update : Bool) (now : Nat) :
    Except String (IndexingStats × IndexState) :=
  if cleanup ≠ CleanupMode.noCleanup ∧
      chunks.any (fun c => (mlookup c.metadata source_id_key).isNone) then
    Except.error "a chunk is missing the source id key"
  else
    let r := runUpserts chunks st source_id_key force_update now
    match cleanup with
    | CleanupMode.noCleanup =>
        Except.ok (⟨r.added, r.updated, r.skipped, 0⟩, r.st)
    | CleanupMode.full =>
        Except.ok (⟨r.added, r.updated, r.skipped, (fullSweep r.st now).1⟩,
          (fullSweep r.st now).2)
    | CleanupMode.incremental =>
        Except.ok
          (⟨r.added, r.updated, r.skipped,
            (incrementalSweep r.st
              ((dedupByKey chunks).map (sourceKeyOf source_id_key)) now).1⟩,
           (incrementalSweep r.st
             ((dedupByKey chunks).map (sourceKeyOf source_id_key)) now).2)

end Ingest

namespace Ingest

/-! ### The `ingest_docs` pipeline (src/ingest.py lines 146-225)

The external collaborators are injected as plain values, following the
spec's capability design (§6, §9): the fetch (`load_tbd_docs`, a network
crawl) as an `Except`-valued input, the chunker
(`text_splitter.split_documents`) as a function, the Indexing Engine
call as a fallible function (per §4.1 a store failure propagates out of
`index`), and the post-run Weaviate aggregate count as a number.  The
observable behavior — log lines, the `!!! Missing ...` warnings, the
invocation of `index`, the final stats line and the vector count — is
returned as an event list, paired with `Except` for an escaping
exception (events already emitted stay emitted). -/

/-- One observable output of a run of `ingest_docs`. -/
inductive Ev where
  | loadedDocs : Nat → Ev
  | warnMissingSource : Ev
  | warnMissingTitle : Ev
  | indexInvoked : List Document → Bool → Ev
  | statsLine : IndexingStats → Ev
  | vecCount : Nat → Ev
deriving DecidableEq

/-- Embeds src/ingest.py lines 182-184: if `"source" not in
doc.metadata`, warn and set `doc.metadata["source"] = ""`. -/
def fixSource (d : Document) : Document × List Ev :=
  if mlookup d.metadata "source" = none
  then (⟨d.page_content, d.metadata ++ [("source", "")]⟩, [Ev.warnMissingSource])
  else (d, [])

/-- Embeds src/ingest.py lines 185-188: if `"title" not in
doc.metadata`, warn and set `doc.metadata["title"] = ""`. -/
def fixTitle (d : Document) : Document × List Ev :=
  if mlookup d.metadata "title" = none
  then (⟨d.page_content, d.metadata ++ [("title", "")]⟩, [Ev.warnMissingTitle])
  else (d, [])

/-- The body of the per-document loop at src/ingest.py lines 181-189:
default `source`, then default `title` (the write of the document to
`docs_transformed.txt` has no bearing on the indexed data and is not
modelled). -/
def fixDoc (d : Document) : Document × List Ev :=
  ((fixTitle (fixSource d).1).1,
   (fixSource d).2 ++ (fixTitle (fixSource d).1).2)

/-- The whole metadata-defaulting loop over `docs_transformed`: every
document is kept (none rejected), in order, with its warnings
concatenated. -/
def fixMetadata (ds : List Document) : List Document × List Ev :=
  (ds.map (fun d => (fixDoc d).1),
   ds.foldr (fun d acc => (fixDoc d).2 ++ acc) [])

/-- Embeds `ingest_docs` (src/ingest.py lines 146-225): fetch, log the
loaded count, split, default missing `source`/`title` metadata, invoke
`index` with `cleanup="full"`, `source_id_key="source"` and the
env-derived `force_update`, then log the stats line and the post-run
vector count.  An error raised by the fetch or by `index` escapes with
the events already emitted. -/
def ingest_docs (fetched : Except String (List Document))
    (split : List Document → List Document)
    (indexCall : List Document → Bool → Except String IndexingStats)
    (envForceUpdate : Option String) (numVecs : Nat) :
    List Ev × Except String Unit :=
  match fetched with
  | Except.error e => ([], Except.error e)
  | Except.ok docs =>
    let fixed := fixMetadata (split docs)
    let force := forceUpdateFromEnv envForceUpdate
    let evs := Ev.loadedDocs docs.length ::
      (fixed.2 ++ [Ev.indexInvoked fixed.1 force])
    match indexCall fixed.1 force with
    | Except.error e => (evs, Except.error e)
    | Except.ok stats =>
        (evs ++ [Ev.statsLine stats, Ev.vecCount numVecs], Except.ok ())

end Ingest

namespace Ingest

/-! ### Lemmas about the metadata-defaulting loop -/

theorem mlookup_append_single_ne (m : StrDict) {k k' : String} (v : String)
    (h : k' ≠ k) : mlookup (m ++ [(k', v)]) k = mlookup m k := by
  rw [mlookup_append]
  cases hm : mlookup m k
  · show mlookup [(k', v)] k = none
    simp [mlookup, h]
  · rfl

theorem fixSource_source_of_none {d : Document}
    (h : mlookup d.metadata "source" = none) :
    mlookup (fixSource d).1.metadata "source" = some "" ∧
    (fixSource d).2 = [Ev.warnMissingSource] := by
  refine ⟨?_, by simp [fixSource, h]⟩
  simp only [fixSource, if_pos h]
  rw [mlookup_append_of_none _ h]
  rfl

theorem fixSource_of_some {d : Document}
    (h : (mlookup d.metadata "source").isSome) : fixSource d = (d, []) := by
  rw [fixSource, if_neg]
  intro h0
  rw [h0] at h
  simp at h

theorem fixTitle_keeps_source (d : Document) :
    mlookup (fixTitle d).1.metadata "source" = mlookup d.metadata "source" := by
  unfold fixTitle
  by_cases h : mlookup d.metadata "title" = none
  · rw [if_pos h]
    exact mlookup_append_single_ne _ _ (by decide)
  · rw [if_neg h]

theorem fixSource_keeps_title (d : Document) :
    mlookup (fixSource d).1.metadata "title" = mlookup d.metadata "title" := by
  unfold fixSource
  by_cases h : mlookup d.metadata "source" = none
  · rw [if_pos h]
    exact mlookup_append_single_ne _ _ (by decide)
  · rw [if_neg h]

theorem fixTitle_title_of_none {d : Document}
    (h : mlookup d.metadata "title" = none) :
    mlookup (fixTitle d).1.metadata "title" = some "" ∧
    (fixTitle d).2 = [Ev.warnMissingTitle] := by
  refine ⟨?_, by simp [fixTitle, h]⟩
  simp only [fixTitle, if_pos h]
  rw [mlookup_append_of_none _ h]
  rfl

theorem fixTitle_of_some {d : Document}
    (h : (mlookup d.metadata "title").isSome) : fixTitle d = (d, []) := by
  rw [fixTitle, if_neg]
  intro h0
  rw [h0] at h
  simp at h

theorem fixDoc_source_isSome (d : Document) :
    (mlookup (fixDoc d).1.metadata "source").isSome := by
  show (mlookup (fixTitle (fixSource d).1).1.metadata "source").isSome
  rw [fixTitle_keeps_source]
  cases h : mlookup d.metadata "source" with
  | none => rw [(fixSource_source_of_none h).1]; rfl
  | some v =>
    rw [fixSource_of_some (by rw [h]; rfl)]
    rw [h]
    rfl

theorem fixDoc_title_isSome (d : Document) :
    (mlookup (fixDoc d).1.metadata "title").isSome := by
  show (mlookup (fixTitle (fixSource d).1).1.metadata "title").isSome
  cases h : mlookup (fixSource d).1.metadata "title" with
  | none => rw [(fixTitle_title_of_none h).1]; rfl
  | some v =>
    rw [fixTitle_of_some (by rw [h]; rfl)]
    rw [h]
    rfl

theorem fixDoc_evs (d : Document) :
    ∀ ev ∈ (fixDoc d).2, ev = Ev.warnMissingSource ∨ ev = Ev.warnMissingTitle := by
  intro ev hev
  rcases List.mem_append.mp hev with h | h
  · unfold fixSource at h
    by_cases hs : mlookup d.metadata "source" = none
    · rw [if_pos hs] at h
      simp at h
      exact Or.inl h
    · rw [if_neg hs] at h
      simp at h
  · unfold fixTitle at h
    by_cases ht : mlookup (fixSource d).1.metadata "title" = none
    · rw [if_pos ht] at h
      simp at h
      exact Or.inr h
    · rw [if_neg ht] at h
      simp at h

theorem fixMetadata_evs : ∀ (ds : List Document), ∀ ev ∈ (fixMetadata ds).2,
    ev = Ev.warnMissingSource ∨ ev = Ev.warnMissingTitle := by
  intro ds
  induction ds with
  | nil => intro ev hev; simp [fixMetadata] at hev
  | cons d rest ih =>
    intro ev hev
    simp only [fixMetadata, List.foldr_cons] at hev
    rcases List.mem_append.mp hev with h | h
    · exact fixDoc_evs d ev h
    · exact ih ev h

end Ingest

namespace Ingest

/-- C1: for every document of the transformed chunk sequence, a missing
`source` or `title` metadata key is injected with the empty string and a
warning is surfaced, the document is still passed to `index` (none
rejected), and consequently every chunk handed to `index` carries both
keys. -/
theorem ingest_metadata_defaults :
    (∀ d : Document,
      (mlookup (fixDoc d).1.metadata "source").isSome ∧
      (mlookup (fixDoc d).1.metadata "title").isSome ∧
      (mlookup d.metadata "source" = none →
        mlookup (fixDoc d).1.metadata "source" = some "" ∧
        Ev.warnMissingSource ∈ (fixDoc d).2) ∧
      (mlookup d.metadata "title" = none →
        mlookup (fixDoc d).1.metadata "title" = some "" ∧
        Ev.warnMissingTitle ∈ (fixDoc d).2)) ∧
    (∀ (docs : List Document) (split : List Document → List Document)
        (indexCall : List Document → Bool → Except String IndexingStats)
        (envF : Option String) (nv : Nat),
      Ev.indexInvoked (fixMetadata (split docs)).1 (forceUpdateFromEnv envF)
          ∈ (ingest_docs (Except.ok docs) split indexCall envF nv).1 ∧
      (fixMetadata (split docs)).1.length = (split docs).length ∧
      (∀ c ∈ (fixMetadata (split docs)).1,
        (mlookup c.metadata "source").isSome ∧
        (mlookup c.metadata "title").isSome)) := by
  constructor
  · intro d
    refine ⟨fixDoc_source_isSome d, fixDoc_title_isSome d, ?_, ?_⟩
    · intro h
      refine ⟨?_, ?_⟩
      · show mlookup (fixTitle (fixSource d).1).1.metadata "source" = some ""
        rw [fixTitle_keeps_source]
        exact (fixSource_source_of_none h).1
      · show Ev.warnMissingSource ∈ (fixSource d).2 ++ (fixTitle (fixSource d).1).2
        rw [(fixSource_source_of_none h).2]
        simp
    · intro h
      have ht : mlookup (fixSource d).1.metadata "title" = none := by
        rw [fixSource_keeps_title]
        exact h
      refine ⟨?_, ?_⟩
      · show mlookup (fixTitle (fixSource d).1).1.metadata "title" = some ""
        exact (fixTitle_title_of_none ht).1
      · show Ev.warnMissingTitle ∈ (fixSource d).2 ++ (fixTitle (fixSource d).1).2
        rw [(fixTitle_title_of_none ht).2]
        simp
  · intro docs split indexCall envF nv
    refine ⟨?_, by simp [fixMetadata], ?_⟩
    · cases hc : indexCall (fixMetadata (split docs)).1 (forceUpdateFromEnv envF) with
      | error e => simp [ingest_docs, hc]
      | ok stats => simp [ingest_docs, hc]
    · intro c hc
      rcases List.mem_map.mp hc with ⟨d, _, hd⟩
      rw [← hd]
      exact ⟨fixDoc_source_isSome d, fixDoc_title_isSome d⟩

/-- Closed instance of C1: a document with empty metadata gets both keys
injected as the empty string and both warnings surfaced. -/
theorem ingest_metadata_defaults_witness :
    mlookup (fixDoc ⟨"body", []⟩).1.metadata "source" = some "" ∧
    Ev.warnMissingSource ∈ (fixDoc ⟨"body", []⟩).2 ∧
    Ev.warnMissingTitle ∈ (fixDoc ⟨"body", []⟩).2 := by
  obtain ⟨-, -, h3, h4⟩ := ingest_metadata_defaults.1 ⟨"body", []⟩
  obtain ⟨ha, hb⟩ := h3 rfl
  obtain ⟨-, hd⟩ := h4 rfl
  exact ⟨ha, hb, hd⟩

/-- C7: when `index` returns, `ingest_docs` always emits the final stats
record and then the post-run total vector count (in that order, at the
end of the run's output); when `index` raises, the error propagates to
the caller and neither the stats line nor the vector count is emitted. -/
theorem ingest_stats_emission
    (docs : List Document) (split : List Document → List Document)
    (indexCall : List Document → Bool → Except String IndexingStats)
    (envF : Option String) (nv : Nat) :
    (∀ s, indexCall (fixMetadata (split docs)).1 (forceUpdateFromEnv envF)
        = Except.ok s →
      (ingest_docs (Except.ok docs) split indexCall envF nv).1
        = (Ev.loadedDocs docs.length ::
            ((fixMetadata (split docs)).2 ++
             [Ev.indexInvoked (fixMetadata (split docs)).1
                (forceUpdateFromEnv envF)])) ++
          [Ev.statsLine s, Ev.vecCount nv] ∧
      (ingest_docs (Except.ok docs) split indexCall envF nv).2
        = Except.ok ()) ∧
    (∀ e, indexCall (fixMetadata (split docs)).1 (forceUpdateFromEnv envF)
        = Except.error e →
      (ingest_docs (Except.ok docs) split indexCall envF nv).2
        = Except.error e ∧
      (∀ s, Ev.statsLine s ∉
        (ingest_docs (Except.ok docs) split indexCall envF nv).1) ∧
      (∀ n, Ev.vecCount n ∉
        (ingest_docs (Except.ok docs) split indexCall envF nv).1)) := by
  constructor
  · intro s hs
    refine ⟨?_, ?_⟩ <;> simp [ingest_docs, hs]
  · intro e he
    refine ⟨by simp [ingest_docs, he], ?_, ?_⟩
    · intro s hmem
      simp only [ingest_docs, he] at hmem
      rcases List.mem_cons.mp hmem with h | h
      · exact Ev.noConfusion h
      · rcases List.mem_append.mp h with h2 | h2
        · rcases fixMetadata_evs _ _ h2 with h3 | h3 <;> exact Ev.noConfusion h3
        · rcases List.mem_singleton.mp h2 with h3
          exact Ev.noConfusion h3
    · intro n hmem
      simp only [ingest_docs, he] at hmem
      rcases List.mem_cons.mp hmem with h | h
      · exact Ev.noConfusion h
      · rcases List.mem_append.mp h with h2 | h2
        · rcases fixMetadata_evs _ _ h2 with h3 | h3 <;> exact Ev.noConfusion h3
        · rcases List.mem_singleton.mp h2 with h3
          exact Ev.noConfusion h3

/-- Closed instance of C7 at a concrete run: with a one-document fetch
and an `index` call that returns all-zero stats, the emitted events end
with the stats line followed by the vector count. -/
theorem ingest_stats_emission_witness :
    (ingest_docs (Except.ok [⟨"b", [("source", "s"), ("title", "t")]⟩])
        (fun ds => ds) (fun _ _ => Except.ok ⟨0, 0, 0, 0⟩) none 7).1
      = (Ev.loadedDocs 1 ::
          ([] ++ [Ev.indexInvoked [⟨"b", [("source", "s"), ("title", "t")]⟩] false])) ++
        [Ev.statsLine ⟨0, 0, 0, 0⟩, Ev.vecCount 7] :=
  ((ingest_stats_emission [⟨"b", [("source", "s"), ("title", "t")]⟩]
      (fun ds => ds) (fun _ _ => Except.ok ⟨0, 0, 0, 0⟩) none 7).1
    ⟨0, 0, 0, 0⟩ rfl).1

/-- C8: when the document fetch (or parse) raises, `ingest_docs` aborts
with that error before `index` is ever invoked: no event at all is
emitted, in particular no `index` invocation (and hence no Vector Store
or Record Manager mutation) takes place. -/
theorem ingest_fetch_error_aborts
    (e : String) (split : List Document → List Document)
    (indexCall : List Document → Bool → Except String IndexingStats)
    (envF : Option String) (nv : Nat) :
    ingest_docs (Except.error e) split indexCall envF nv
        = ([], Except.error e) ∧
    (∀ (chunks : List Document) (f : Bool),
      Ev.indexInvoked chunks f ∉
        (ingest_docs (Except.error e) split indexCall envF nv).1) := by
  exact ⟨rfl, by simp [ingest_docs]⟩

end Ingest

namespace Ingest

/-- Closed instance of C8 at a concrete failing fetch. -/
theorem ingest_fetch_error_aborts_witness :
    ingest_docs (Except.error "HTTPError: sitemap fetch failed")
        (fun ds => ds) (fun _ _ => Except.ok ⟨0, 0, 0, 0⟩) none 0
      = ([], Except.error "HTTPError: sitemap fetch failed") :=
  (ingest_fetch_error_aborts "HTTPError: sitemap fetch failed"
    (fun ds => ds) (fun _ _ => Except.ok ⟨0, 0, 0, 0⟩) none 0).1

end Ingest

namespace Ingest

/-! ### Lemmas about the Indexing Engine -/

theorem rmFind_iff (rm : List RMEntry) (k : HashKey) :
    rmFind rm k = true ↔ ∃ e ∈ rm, e.key = k := by
  simp [rmFind, List.any_eq_true]

theorem rmUpsert_self (rm : List RMEntry) (k : HashKey) (g : String) (t : Nat) :
    rmFind (rmUpsert rm k g t) k = true := by
  unfold rmUpsert
  by_cases h : rmFind rm k
  · rw [if_pos h]
    rcases (rmFind_iff rm k).mp h with ⟨e, he, hek⟩
    refine (rmFind_iff _ k).mpr ⟨⟨k, g, t⟩, ?_, rfl⟩
    exact List.mem_map.mpr ⟨e, he, by rw [if_pos hek]⟩
  · rw [if_neg h]
    exact (rmFind_iff _ k).mpr ⟨⟨k, g, t⟩, by simp, rfl⟩

theorem rmUpsert_mono {rm : List RMEntry} {k' : HashKey}
    (h : rmFind rm k' = true) (k : HashKey) (g : String) (t : Nat) :
    rmFind (rmUpsert rm k g t) k' = true := by
  unfold rmUpsert
  rcases (rmFind_iff rm k').mp h with ⟨e, he, hek⟩
  by_cases hf : rmFind rm k
  · rw [if_pos hf]
    refine (rmFind_iff _ k').mpr ?_
    by_cases hk : e.key = k
    · exact ⟨⟨k, g, t⟩, List.mem_map.mpr ⟨e, he, by rw [if_pos hk]⟩, by rw [← hek, hk]⟩
    · exact ⟨e, List.mem_map.mpr ⟨e, he, by rw [if_neg hk]⟩, hek⟩
  · rw [if_neg hf]
    exact (rmFind_iff _ k').mpr ⟨e, List.mem_append_left _ he, hek⟩

theorem rmUpsert_mem {rm : List RMEntry} {k : HashKey} {g : String} {t : Nat}
    {e' : RMEntry} (h : e' ∈ rmUpsert rm k g t) :
    e' = ⟨k, g, t⟩ ∨ (e' ∈ rm ∧ e'.key ≠ k) := by
  unfold rmUpsert at h
  by_cases hf : rmFind rm k
  · rw [if_pos hf] at h
    rcases List.mem_map.mp h with ⟨e, he, hee⟩
    by_cases hk : e.key = k
    · rw [if_pos hk] at hee
      exact Or.inl hee.symm
    · rw [if_neg hk] at hee
      exact Or.inr ⟨hee ▸ he, hee ▸ hk⟩
  · rw [if_neg hf] at h
    rcases List.mem_append.mp h with h2 | h2
    · refine Or.inr ⟨h2, fun hk => ?_⟩
      exact (Bool.eq_false_iff.mp (Bool.not_eq_true _ ▸ hf) :
        rmFind rm k ≠ true) ((rmFind_iff rm k).mpr ⟨e', h2, hk⟩)
    · exact Or.inl (List.mem_singleton.mp h2)

end Ingest

namespace Ingest

/-- The ledger effect of one upsert pass, in isolation: every branch of
`upsertStep` (skip, overwrite, add) performs the same ledger refresh. -/
def foldRM (source_id_key : String) (now : Nat) (rm : List RMEntry)
    (l : List Document) : List RMEntry :=
  l.foldl (fun r c => rmUpsert r (contentHash c) (sourceKeyOf source_id_key c) now) rm

theorem upsertStep_rm (sid : String) (force : Bool) (now : Nat)
    (acc : UpAcc) (c : Document) :
    (upsertStep sid force now acc c).st.rm
      = rmUpsert acc.st.rm (contentHash c) (sourceKeyOf sid c) now := rfl

theorem foldl_upsert_rm (sid : String) (force : Bool) (now : Nat) :
    ∀ (l : List Document) (acc : UpAcc),
      (l.foldl (upsertStep sid force now) acc).st.rm
        = foldRM sid now acc.st.rm l := by
  intro l
  induction l with
  | nil => intro acc; rfl
  | cons c rest ih =>
    intro acc
    show (rest.foldl (upsertStep sid force now)
        (upsertStep sid force now acc c)).st.rm = _
    rw [ih (upsertStep sid force now acc c), upsertStep_rm]
    rfl

theorem foldRM_mem (sid : String) (now : Nat) :
    ∀ (l : List Document) (rm : List RMEntry) (e' : RMEntry),
      e' ∈ foldRM sid now rm l →
      (e'.updated_at = now ∧ ∃ c ∈ l, contentHash c = e'.key) ∨
      (e' ∈ rm ∧ ∀ c ∈ l, contentHash c ≠ e'.key) := by
  intro l
  induction l with
  | nil => intro rm e' h; exact Or.inr ⟨h, by simp⟩
  | cons c rest ih =>
    intro rm e' h
    have h' : e' ∈ foldRM sid now
        (rmUpsert rm (contentHash c) (sourceKeyOf sid c) now) rest := h
    rcases ih _ e' h' with ⟨ht, c', hc', hk⟩ | ⟨hmem, hrest⟩
    · exact Or.inl ⟨ht, c', List.mem_cons_of_mem _ hc', hk⟩
    · rcases rmUpsert_mem hmem with he | ⟨hrm, hne⟩
      · subst he
        exact Or.inl ⟨rfl, c, List.mem_cons_self _ _, rfl⟩
      · refine Or.inr ⟨hrm, ?_⟩
        intro c' hc'
        rcases List.mem_cons.mp hc' with h1 | h1
        · subst h1
          exact fun hk => hne hk.symm
        · exact hrest c' h1

theorem foldRM_find (sid : String) (now : Nat) :
    ∀ (l : List Document) (rm : List RMEntry),
      (∀ k, rmFind rm k = true → rmFind (foldRM sid now rm l) k = true) ∧
      (∀ c ∈ l, rmFind (foldRM sid now rm l) (contentHash c) = true) := by
  intro l
  induction l with
  | nil => intro rm; exact ⟨fun k h => h, by simp⟩
  | cons c rest ih =>
    intro rm
    constructor
    · intro k h
      exact (ih _).1 k (rmUpsert_mono h _ _ _)
    · intro c' hc'
      rcases List.mem_cons.mp hc' with h1 | h1
      · subst h1
        exact (ih _).1 _ (rmUpsert_self _ _ _ _)
      · exact (ih _).2 c' h1

theorem foldl_skip (sid : String) (now : Nat) :
    ∀ (l : List Document) (acc : UpAcc),
      (∀ c ∈ l, rmFind acc.st.rm (contentHash c) = true) →
      (l.foldl (upsertStep sid false now) acc).added = acc.added ∧
      (l.foldl (upsertStep sid false now) acc).updated = acc.updated ∧
      (l.foldl (upsertStep sid false now) acc).skipped
          = acc.skipped + l.length ∧
      (l.foldl (upsertStep sid false now) acc).st.vs = acc.st.vs := by
  intro l
  induction l with
  | nil => intro acc _; exact ⟨rfl, rfl, rfl, rfl⟩
  | cons c rest ih =>
    intro acc h
    have hex : rmFind acc.st.rm (contentHash c) = true :=
      h c (List.mem_cons_self _ _)
    have h1 : (upsertStep sid false now acc c).added = acc.added := by
      simp [upsertStep, hex]
    have h2 : (upsertStep sid false now acc c).updated = acc.updated := by
      simp [upsertStep, hex]
    have h3 : (upsertStep sid false now acc c).skipped = acc.skipped + 1 := by
      simp [upsertStep, hex]
    have h4 : (upsertStep sid false now acc c).st.vs = acc.st.vs := by
      simp [upsertStep, hex]
    have hnext : ∀ c' ∈ rest,
        rmFind (upsertStep sid false now acc c).st.rm (contentHash c') = true := by
      intro c' hc'
      rw [upsertStep_rm]
      exact rmUpsert_mono (h c' (List.mem_cons_of_mem _ hc')) _ _ _
    obtain ⟨ha, hu, hs, hv⟩ := ih (upsertStep sid false now acc c) hnext
    refine ⟨?_, ?_, ?_, ?_⟩
    · show (rest.foldl (upsertStep sid false now)
        (upsertStep sid false now acc c)).added = acc.added
      rw [ha, h1]
    · show (rest.foldl (upsertStep sid false now)
        (upsertStep sid false now acc c)).updated = acc.updated
      rw [hu, h2]
    · show (rest.foldl (upsertStep sid false now)
        (upsertStep sid false now acc c)).skipped = acc.skipped + (c :: rest).length
      rw [hs, h3]
      simp
      omega
    · show (rest.foldl (upsertStep sid false now)
        (upsertStep sid false now acc c)).st.vs = acc.st.vs
      rw [hv, h4]

end Ingest

namespace Ingest

theorem any_isNone_false {chunks : List Document} {sid : String}
    (hs : ∀ c ∈ chunks, (mlookup c.metadata sid).isSome) :
    chunks.any (fun c => (mlookup c.metadata sid).isNone) = false := by
  rw [List.any_eq_false]
  intro c hc
  have hsome := hs c hc
  cases hm : mlookup c.metadata sid with
  | none => rw [hm] at hsome; exact absurd hsome (by simp)
  | some v => simp [hm]

theorem index_full_eq (chunks : List Document) (st : IndexState) (sid : String)
    (force : Bool) (now : Nat)
    (hany : chunks.any (fun c => (mlookup c.metadata sid).isNone) = false) :
    index chunks st CleanupMode.full sid force now =
      Except.ok
        (⟨(runUpserts chunks st sid force now).added,
          (runUpserts chunks st sid force now).updated,
          (runUpserts chunks st sid force now).skipped,
          (fullSweep (runUpserts chunks st sid force now).st now).1⟩,
         (fullSweep (runUpserts chunks st sid force now).st now).2) := by
  unfold index
  split
  · next hcl =>
    rw [hany] at hcl
    exact Bool.noConfusion hcl.2
  · rfl

theorem runUpserts_rm (chunks : List Document) (st : IndexState) (sid : String)
    (force : Bool) (now : Nat) :
    (runUpserts chunks st sid force now).st.rm
      = foldRM sid now st.rm (dedupByKey chunks) :=
  foldl_upsert_rm sid force now (dedupByKey chunks) ⟨0, 0, 0, st⟩

theorem fullSweep_rm (st : IndexState) (now : Nat) :
    (fullSweep st now).2.rm
      = st.rm.filter (fun e => !decide (e.updated_at < now)) := rfl

theorem fullSweep_vs (st : IndexState) (now : Nat) :
    (fullSweep st now).2.vs
      = st.vs.filter (fun k => decide
          (k ∉ (st.rm.filter (fun e => decide (e.updated_at < now))).map
            (fun e => e.key))) := rfl

theorem fullSweep_count (st : IndexState) (now : Nat) :
    (fullSweep st now).1
      = (st.rm.filter (fun e => decide (e.updated_at < now))).length := rfl

end Ingest

namespace Ingest

theorem fullRun_rm_keys (chunks : List Document) (st0 : IndexState) (sid : String)
    (f1 : Bool) (t1 : Nat) (h0 : ∀ e ∈ st0.rm, e.updated_at < t1) :
    (∀ e ∈ (fullSweep (runUpserts chunks st0 sid f1 t1).st t1).2.rm,
        ∃ c ∈ dedupByKey chunks, contentHash c = e.key) ∧
    (∀ c ∈ dedupByKey chunks,
        rmFind (fullSweep (runUpserts chunks st0 sid f1 t1).st t1).2.rm
          (contentHash c) = true) := by
  constructor
  · intro e he
    rw [fullSweep_rm, runUpserts_rm] at he
    obtain ⟨hmem, hpred⟩ := List.mem_filter.mp he
    rcases foldRM_mem sid t1 (dedupByKey chunks) st0.rm e hmem with
      ⟨_, c, hc, hk⟩ | ⟨h0e, _⟩
    · exact ⟨c, hc, hk⟩
    · exfalso
      have hlt := h0 e h0e
      simp at hpred
      omega
  · intro c hc
    have hfind := (foldRM_find sid t1 (dedupByKey chunks) st0.rm).2 c hc
    rcases (rmFind_iff _ _).mp hfind with ⟨e, he, hek⟩
    have hnot : ¬ e.updated_at < t1 := by
      rcases foldRM_mem sid t1 (dedupByKey chunks) st0.rm e he with
        ⟨ht, _⟩ | ⟨_, hall⟩
      · omega
      · exact absurd hek.symm (hall c hc)
    refine (rmFind_iff _ _).mpr ⟨e, ?_, hek⟩
    rw [fullSweep_rm, runUpserts_rm]
    exact List.mem_filter.mpr ⟨he, by simp [hnot]⟩

end Ingest

namespace Ingest

/-- C2: running `index` twice in a row with identical input chunks,
`cleanup="full"` and `force_update=false` (as `ingest_docs` invokes it)
yields on the second run `num_added=0`, `num_updated=0`, `num_skipped`
equal to the number of deduplicated chunks, `num_deleted=0`, and leaves
the Vector Store's record set (hence its record count) unchanged.  The
hypotheses say that every chunk carries the source id key (§4.1
precondition) and that the first run's timestamp is newer than every
pre-existing ledger entry (timestamps are monotone across runs). -/
theorem index_second_run_idempotent
    (chunks : List Document) (st0 : IndexState) (sid : String) (t1 t2 : Nat)
    (hs : ∀ c ∈ chunks, (mlookup c.metadata sid).isSome)
    (h0 : ∀ e ∈ st0.rm, e.updated_at < t1)
    (s1 : IndexingStats) (st1 : IndexState)
    (h1 : index chunks st0 CleanupMode.full sid false t1
            = Except.ok (s1, st1)) :
    ∃ st2 : IndexState,
      index chunks st1 CleanupMode.full sid false t2
          = Except.ok (⟨0, 0, (dedupByKey chunks).length, 0⟩, st2) ∧
      st2.vs = st1.vs ∧ st2.vs.length = st1.vs.length := by
  have hany := any_isNone_false hs
  rw [index_full_eq chunks st0 sid false t1 hany] at h1
  have hst1 : (fullSweep (runUpserts chunks st0 sid false t1).st t1).2 = st1 :=
    congrArg Prod.snd (Except.ok.inj h1)
  obtain ⟨hkeys, hfind⟩ := fullRun_rm_keys chunks st0 sid false t1 h0
  rw [hst1] at hkeys hfind
  rw [index_full_eq chunks st1 sid false t2 hany]
  obtain ⟨ha2, hu2, hsk2, hv2⟩ :=
    foldl_skip sid t2 (dedupByKey chunks) ⟨0, 0, 0, st1⟩ hfind
  have hB : (runUpserts chunks st1 sid false t2).st.rm
      = foldRM sid t2 st1.rm (dedupByKey chunks) := runUpserts_rm _ _ _ _ _
  have hall_t2 : ∀ e ∈ (runUpserts chunks st1 sid false t2).st.rm,
      e.updated_at = t2 := by
    intro e he
    rw [hB] at he
    rcases foldRM_mem sid t2 (dedupByKey chunks) st1.rm e he with
      ⟨ht, _⟩ | ⟨hmem, hall⟩
    · exact ht
    · obtain ⟨c, hc, hk⟩ := hkeys e hmem
      exact absurd hk (hall c hc)
  have hstale : (runUpserts chunks st1 sid false t2).st.rm.filter
      (fun e => decide (e.updated_at < t2)) = [] := by
    rw [List.filter_eq_nil_iff]
    intro e he
    have ht := hall_t2 e he
    simp [ht]
  have hvs : (fullSweep (runUpserts chunks st1 sid false t2).st t2).2.vs
      = st1.vs := by
    rw [fullSweep_vs, hstale]
    simpa using hv2
  refine ⟨(fullSweep (runUpserts chunks st1 sid false t2).st t2).2, ?_, hvs,
    by rw [hvs]⟩
  have hcount : (fullSweep (runUpserts chunks st1 sid false t2).st t2).1 = 0 := by
    rw [fullSweep_count, hstale]
    rfl
  have ha' : (runUpserts chunks st1 sid false t2).added = 0 := ha2
  have hu' : (runUpserts chunks st1 sid false t2).updated = 0 := hu2
  have hsk' : (runUpserts chunks st1 sid false t2).skipped
      = (dedupByKey chunks).length := by
    have h := hsk2
    simpa using h
  rw [ha', hu', hsk', hcount]

end Ingest

namespace Ingest

/-- Closed instance of C2: indexing one concrete chunk at time 1 from an
empty state, then re-running the identical input at time 2, yields
`num_added=0, num_updated=0, num_skipped=1, num_deleted=0` and an
unchanged Vector Store. -/
theorem index_second_run_idempotent_witness :
    ∃ st2 : IndexState,
      index [⟨"hello", [("source", "s")]⟩]
          ⟨[⟨("hello", [("source", "s")]), "s", 1⟩],
           [("hello", [("source", "s")])]⟩
          CleanupMode.full "source" false 2
        = Except.ok (⟨0, 0, 1, 0⟩, st2) ∧
      st2.vs = [("hello", [("source", "s")])] ∧ st2.vs.length = 1 :=
  index_second_run_idempotent [⟨"hello", [("source", "s")]⟩] ⟨[], []⟩
    "source" 1 2 (by decide) (by decide) ⟨1, 0, 0, 0⟩
    ⟨[⟨("hello", [("source", "s")]), "s", 1⟩], [("hello", [("source", "s")])]⟩
    (by rfl)

/-- C3: calling `index` with an empty chunk sequence and
`cleanup="full"` on a namespace holding `N` existing ledger entries (all
older than the run, with the Vector Store in ledger lockstep) deletes
everything from both stores and reports `num_deleted = N`; and
`ingest_docs` applies no emptiness guard — whenever the fetch+split
pipeline produces zero chunks, `index` is still invoked, on the empty
chunk list. -/
theorem index_empty_full_deletes_all
    (st0 : IndexState) (sid : String) (f : Bool) (t : Nat)
    (hts : ∀ e ∈ st0.rm, e.updated_at < t)
    (hsync : ∀ k ∈ st0.vs, ∃ e ∈ st0.rm, e.key = k) :
    index [] st0 CleanupMode.full sid f t
        = Except.ok (⟨0, 0, 0, st0.rm.length⟩, ⟨[], []⟩) ∧
    (∀ (docs : List Document) (split : List Document → List Document)
        (indexCall : List Document → Bool → Except String IndexingStats)
        (envF : Option String) (nv : Nat), split docs = [] →
      Ev.indexInvoked [] (forceUpdateFromEnv envF)
        ∈ (ingest_docs (Except.ok docs) split indexCall envF nv).1) := by
  constructor
  · rw [index_full_eq [] st0 sid f t (by rfl)]
    have hstale : st0.rm.filter (fun e => decide (e.updated_at < t)) = st0.rm := by
      rw [List.filter_eq_self]
      intro e he
      simp [hts e he]
    have hcount : (fullSweep st0 t).1 = st0.rm.length := by
      rw [fullSweep_count, hstale]
    have hrm : (fullSweep st0 t).2.rm = [] := by
      rw [fullSweep_rm, List.filter_eq_nil_iff]
      intro e he
      simp [hts e he]
    have hvs : (fullSweep st0 t).2.vs = [] := by
      rw [fullSweep_vs, hstale, List.filter_eq_nil_iff]
      intro k hk
      obtain ⟨e, he, hek⟩ := hsync k hk
      simp
      exact ⟨e, he, hek⟩
    have hstate : (fullSweep st0 t).2 = (⟨[], []⟩ : IndexState) := by
      have heta : (fullSweep st0 t).2
          = (⟨(fullSweep st0 t).2.rm, (fullSweep st0 t).2.vs⟩ : IndexState) := rfl
      rw [heta, hrm, hvs]
    show (Except.ok ((⟨0, 0, 0, (fullSweep st0 t).1⟩ : IndexingStats),
            (fullSweep st0 t).2) : Except String (IndexingStats × IndexState))
        = Except.ok (⟨0, 0, 0, st0.rm.length⟩, (⟨[], []⟩ : IndexState))
    rw [hcount, hstate]
  · intro docs split indexCall envF nv hsplit
    simp only [ingest_docs, hsplit]
    cases hc : indexCall (fixMetadata []).1 (forceUpdateFromEnv envF) with
    | error e => simp [fixMetadata]
    | ok stats => simp [fixMetadata]

/-- Closed instance of C3: an empty run at time 1 against a one-entry
namespace deletes that entry from both stores and reports
`num_deleted=1`. -/
theorem index_empty_full_deletes_all_witness :
    index [] ⟨[⟨("c", [("source", "s")]), "s", 0⟩], [("c", [("source", "s")])]⟩
        CleanupMode.full "source" false 1
      = Except.ok (⟨0, 0, 0, 1⟩, ⟨[], []⟩) :=
  (index_empty_full_deletes_all
    ⟨[⟨("c", [("source", "s")]), "s", 0⟩], [("c", [("source", "s")])]⟩
    "source" false 1 (by decide) (by decide)).1

end Ingest
